import Mathlib

set_option maxHeartbeats 1000000

/-!
Verification of `toot/wcstring.py`: display-width-aware text wrapping,
truncation and padding.

Strings are modelled as `List Char`.  The external per-character width
oracle (`wcwidth` from the `wcwidth` package) is a parameter
`cw : Char → Int`; `wcswidth` (the per-string width) is derived from it
exactly as the library does.  Generators are modelled as the finite lists
of the values they yield.
-/

/-- Modelled from the spec: the external per-string display-width function
`wcswidth` (out-of-scope collaborator).  It is the sum of the per-character
widths, or the sentinel `-1` as soon as some character is non-printable,
i.e. has negative per-character width. -/
def wcswidth (cw : Char → Int) (s : List Char) : Int :=
  if s.any (fun c => cw c < 0) then -1 else (s.map cw).sum

/-- Modelled from the spec: a sample instance of the external width oracle
`wcwidth`, used to evaluate the development at concrete inputs.  It follows
the contract of §6: `-1` for control characters, `0` for a combining mark
(U+0300), `2` for wide characters (Hangul Jamo and CJK ranges), `1`
otherwise. -/
def sampleWidth (c : Char) : Int :=
  if c.toNat < 32 ∨ c.toNat = 127 then -1
  else if c.toNat = 0x0300 then 0
  else if 0x1100 ≤ c.toNat ∧ c.toNat ≤ 0x115F then 2
  else if 0x4E00 ≤ c.toNat ∧ c.toNat ≤ 0x9FFF then 2
  else 1

/-- Characters for which Python's `str.isspace()` holds; `str.strip()` and
`str.rstrip()` with no argument remove exactly these. -/
def isPySpace (c : Char) : Bool :=
  c == ' ' || c == '\t' || c == '\n' || c == '\r' ||
  c.toNat == 0x0b || c.toNat == 0x0c ||
  (0x1c ≤ c.toNat && c.toNat ≤ 0x1f) ||
  c.toNat == 0x85 || c.toNat == 0xa0 || c.toNat == 0x1680 ||
  (0x2000 ≤ c.toNat && c.toNat ≤ 0x200a) ||
  c.toNat == 0x2028 || c.toNat == 0x2029 || c.toNat == 0x202f ||
  c.toNat == 0x205f || c.toNat == 0x3000

/-- Python `str.rstrip()`: drop trailing whitespace. -/
def pyRstrip (s : List Char) : List Char :=
  (s.reverse.dropWhile isPySpace).reverse

/-- Python `str.strip()`: drop leading and trailing whitespace. -/
def pyStrip (s : List Char) : List Char :=
  (pyRstrip s).dropWhile isPySpace

/-- The space or horizontal-tab class `[ \t]` of the tokenizing regex. -/
def isSpaceTab (c : Char) : Bool :=
  c == ' ' || c == '\t'

/-- One attempt of the tokenizing regex `.+?(?:[ \t]+|$)` of `wc_wrap`
anchored at the start of `s` (Python `re` semantics, no MULTILINE / DOTALL:
`.` matches everything but `\n`; the lazy `.+?` takes the fewest characters
after which the greedy `[ \t]+` or the end anchor `$` — which also matches
just before a final `\n` — succeeds).  Returns the matched text and the
rest of the input. -/
def matchAt : List Char → Option (List Char × List Char)
  | [] => none
  | c :: rest =>
    if c = '\n' then none
    else
      match rest with
      | [] => some ([c], [])
      | d :: rest2 =>
        if isSpaceTab d then
          some (c :: rest.takeWhile isSpaceTab, rest.dropWhile isSpaceTab)
        else if d = '\n' ∧ rest2 = [] then
          some ([c], rest)
        else
          match matchAt rest with
          | some (m, r) => some (c :: m, r)
          | none => none

/-- Leftmost match of the tokenizing regex in `s`: the unmatched piece
before the match, the match, and the rest. -/
def findMatch : List Char → Option (List Char × List Char × List Char)
  | [] => none
  | c :: rest =>
    match matchAt (c :: rest) with
    | some (m, r) => some ([], m, r)
    | none =>
      match findMatch rest with
      | some (p, m, r) => some (c :: p, m, r)
      | none => none

/-- Fuelled splitting loop of `re.split(r"(.+?(?:[ \t]+|$))", text)`: the
pieces between matches interleaved with the captured matches, ending with
the piece after the last match. -/
def reSplitFuel : Nat → List Char → List (List Char)
  | 0, s => [s]
  | fuel + 1, s =>
    match findMatch s with
    | none => [s]
    | some (p, m, r) => p :: m :: reSplitFuel fuel r

/-- `re.split(r"(.+?(?:[ \t]+|$))", text)`: each match strictly shrinks the
rest, so `length + 1` units of fuel always suffice. -/
def reSplit (s : List Char) : List (List Char) :=
  reSplitFuel (s.length + 1) s

/-- Loop body of `_wc_hard_wrap`, carrying the pending buffer `chars` and
its accumulated width `chars_len`. -/
def hardWrapGo (cw : Char → Int) (length : Int) :
    List Char → List Char → Int → List (List Char)
  | [], chars, _ => if chars = [] then [] else [chars]
  | c :: rest, chars, chars_len =>
    let char_len := cw c
    if chars_len + char_len > length then
      chars :: hardWrapGo cw length rest [c] char_len
    else
      hardWrapGo cw length rest (chars ++ [c]) (chars_len + char_len)

/-- `_wc_hard_wrap(line, length)`: wrap a line with no usable whitespace
into chunks by raw character accumulation. -/
def wc_hard_wrap (cw : Char → Int) (line : List Char) (length : Int) :
    List (List Char) :=
  hardWrapGo cw length line [] 0

/-- The running state of the `wc_wrap` loop: the tokens of the line being
built and the tracked `line_len`. -/
structure WrapState where
  lineWords : List (List Char)
  lineLen : Int
  deriving DecidableEq

/-- One iteration of the `wc_wrap` loop on a (non-empty) token `word`:
the lines yielded during the iteration and the updated state. -/
def wcWrapStep (cw : Char → Int) (length : Int) (st : WrapState)
    (word : List Char) : List (List Char) × WrapState :=
  let wordLen := wcswidth cw word
  let stripedLine := pyRstrip st.lineWords.flatten
  let lineLen :=
    if wcswidth cw stripedLine > length then st.lineLen % length else st.lineLen
  if st.lineWords ≠ [] ∧ lineLen + wordLen > length ∧
      lineLen + wcswidth cw (pyRstrip word) > length then
    let out :=
      if wcswidth cw stripedLine ≤ length then [stripedLine]
      else wc_hard_wrap cw stripedLine length
    (out, ⟨[word], wcswidth cw [] + wordLen⟩)
  else
    ([], ⟨st.lineWords ++ [word], wcswidth cw st.lineWords.flatten + wordLen⟩)

/-- The epilogue of `wc_wrap`: flush the pending line, hard-wrapping it when
the tracked `line_len` exceeds the budget. -/
def wcWrapFinal (cw : Char → Int) (length : Int) (st : WrapState) :
    List (List Char) :=
  if st.lineWords = [] then []
  else
    let line := pyRstrip st.lineWords.flatten
    if st.lineLen ≤ length then [line]
    else wc_hard_wrap cw line length

/-- The `wc_wrap` loop over the remaining tokens. -/
def wcWrapGo (cw : Char → Int) (length : Int) :
    WrapState → List (List Char) → List (List Char)
  | st, [] => wcWrapFinal cw length st
  | st, w :: ws =>
    let res := wcWrapStep cw length st w
    res.1 ++ wcWrapGo cw length res.2 ws

/-- `wc_wrap(text, length)`: split `text` into word-plus-trailing-whitespace
tokens (empty tokens are skipped by the loop) and run the greedy wrapping
loop. -/
def wc_wrap (cw : Char → Int) (text : List Char) (length : Int) :
    List (List Char) :=
  wcWrapGo cw length ⟨[], 0⟩ ((reSplit text).filter (fun w => !w.isEmpty))

/-- The reverse scan of `trunc`: how many trailing characters the loop
consumes before the remaining width fits in `length`.  `remaining` is
`text_length` minus the width truncated so far. -/
def truncCount (cw : Char → Int) (length : Int) : Int → List Char → Nat
  | _, [] => 0
  | remaining, c :: rest =>
    if remaining - cw c ≤ length then 1
    else truncCount cw length (remaining - cw c) rest + 1

/-- `trunc(text, length)`: truncate to the given display width, replacing
the removed tail by an ellipsis.  `none` models `ValueError` (the
`InvalidArgument` of the spec). -/
def trunc (cw : Char → Int) (text : List Char) (length : Int) :
    Option (List Char) :=
  if length < 1 then none
  else
    let text1 := pyStrip text
    let textLength := wcswidth cw text1
    if textLength ≤ length then some text1
    else
      let n := truncCount cw length textLength text1.reverse + 1
      some (pyStrip (text1.take (text1.length - n)) ++ ['…'])

/-- `pad(text, length)`: append spaces up to the given display width. -/
def pad (cw : Char → Int) (text : List Char) (length : Int) : List Char :=
  let textLength := wcswidth cw text
  if textLength < length then
    text ++ List.replicate (length - textLength).toNat ' '
  else text

/-- `fit_text(text, length)`: truncate or pad to the given display width.
`none` models the `ValueError` propagated from `trunc`. -/
def fit_text (cw : Char → Int) (text : List Char) (length : Int) :
    Option (List Char) :=
  let textLength := wcswidth cw text
  if textLength > length then trunc cw text length
  else if textLength < length then some (pad cw text length)
  else some text

/-! Basic facts about the width oracle. -/

theorem wcswidth_nil (cw : Char → Int) : wcswidth cw [] = 0 := rfl

theorem wcswidth_eq_sum (cw : Char → Int) (s : List Char)
    (h : ∀ c ∈ s, 0 ≤ cw c) : wcswidth cw s = (s.map cw).sum := by
  have hany : s.any (fun c => cw c < 0) = false := by
    simp only [List.any_eq_false, decide_eq_true_eq]
    intro c hc
    exact not_lt.mpr (h c hc)
  simp [wcswidth, hany]

theorem sum_map_nonneg (cw : Char → Int) (s : List Char)
    (h : ∀ c ∈ s, 0 ≤ cw c) : 0 ≤ (s.map cw).sum := by
  apply List.sum_nonneg
  intro x hx
  obtain ⟨c, hc, rfl⟩ := List.mem_map.mp hx
  exact h c hc

theorem wcswidth_nonneg_iff (cw : Char → Int) (s : List Char) :
    0 ≤ wcswidth cw s ↔ ∀ c ∈ s, 0 ≤ cw c := by
  constructor
  · intro h c hc
    by_contra hneg
    have hm : wcswidth cw s = -1 := by
      unfold wcswidth
      rw [if_pos]
      simp only [List.any_eq_true, decide_eq_true_eq]
      exact ⟨c, hc, not_le.mp hneg⟩
    rw [hm] at h
    norm_num at h
  · intro h
    rw [wcswidth_eq_sum cw s h]
    exact sum_map_nonneg cw s h

/-! Decompositions for Python `strip` and `rstrip`. -/

theorem pyRstrip_decomp (s : List Char) :
    ∃ t, s = pyRstrip s ++ t ∧ ∀ c ∈ t, isPySpace c := by
  refine ⟨(s.reverse.takeWhile isPySpace).reverse, ?_, ?_⟩
  · unfold pyRstrip
    conv_lhs => rw [← List.reverse_reverse s,
      ← List.takeWhile_append_dropWhile (p := isPySpace) (l := s.reverse)]
    rw [List.reverse_append]
  · intro c hc
    rw [List.mem_reverse] at hc
    exact List.mem_takeWhile_imp hc

theorem mem_pyRstrip (s : List Char) (c : Char) (h : c ∈ pyRstrip s) : c ∈ s := by
  obtain ⟨t, ht, -⟩ := pyRstrip_decomp s
  rw [ht]
  exact List.mem_append_left t h

theorem pyStrip_decomp (s : List Char) : ∃ t u, s = t ++ pyStrip s ++ u := by
  obtain ⟨u, hu, -⟩ := pyRstrip_decomp s
  refine ⟨(pyRstrip s).takeWhile isPySpace, u, ?_⟩
  unfold pyStrip
  conv_lhs => rw [hu,
    ← List.takeWhile_append_dropWhile (p := isPySpace) (l := pyRstrip s)]

theorem mem_pyStrip (s : List Char) (c : Char) (h : c ∈ pyStrip s) : c ∈ s := by
  obtain ⟨t, u, hs⟩ := pyStrip_decomp s
  rw [hs]
  exact List.mem_append_left u (List.mem_append_right t h)

theorem sum_pyRstrip_le (cw : Char → Int) (s : List Char)
    (h : ∀ c ∈ s, 0 ≤ cw c) :
    ((pyRstrip s).map cw).sum ≤ (s.map cw).sum := by
  obtain ⟨t, ht, -⟩ := pyRstrip_decomp s
  conv_rhs => rw [ht]
  rw [List.map_append, List.sum_append]
  have h0 : 0 ≤ (t.map cw).sum := by
    apply sum_map_nonneg
    intro c hc
    exact h c (ht ▸ List.mem_append_right _ hc)
  omega

theorem sum_pyStrip_le (cw : Char → Int) (s : List Char)
    (h : ∀ c ∈ s, 0 ≤ cw c) :
    ((pyStrip s).map cw).sum ≤ (s.map cw).sum := by
  obtain ⟨t, u, hs⟩ := pyStrip_decomp s
  conv_rhs => rw [hs]
  simp only [List.map_append, List.sum_append]
  have h1 : 0 ≤ (t.map cw).sum := by
    apply sum_map_nonneg
    intro c hc
    exact h c (hs ▸ List.mem_append_left u (List.mem_append_left _ hc))
  have h2 : 0 ≤ (u.map cw).sum := by
    apply sum_map_nonneg
    intro c hc
    exact h c (hs ▸ List.mem_append_right _ hc)
  omega

/-! The hard wrapper: partition, chunk bounds, head structure. -/

theorem hardWrapGo_flatten (cw : Char → Int) (length : Int) :
    ∀ (rest chars : List Char) (n : Int),
      (hardWrapGo cw length rest chars n).flatten = chars ++ rest := by
  intro rest
  induction rest with
  | nil =>
    intro chars n
    by_cases h : chars = [] <;> simp [hardWrapGo, h]
  | cons c r ih =>
    intro chars n
    simp only [hardWrapGo]
    split
    · simp [ih]
    · rw [ih]
      simp

theorem chunk_good (cw : Char → Int) (length : Int) (chars : List Char) (n : Int)
    (hch : ∀ c ∈ chars, 0 ≤ cw c) (hsum : n = (chars.map cw).sum)
    (hinv : n ≤ length ∨ ∃ c, chars = [c]) :
    wcswidth cw chars ≤ length ∨ ∃ c, chars = [c] ∧ length < cw c := by
  rcases hinv with hle | ⟨c, rfl⟩
  · left
    rw [wcswidth_eq_sum cw _ hch]
    omega
  · rcases le_or_lt (cw c) length with h1 | h1
    · left
      rw [wcswidth_eq_sum cw _ hch]
      simpa using h1
    · right
      exact ⟨c, rfl, h1⟩

theorem hardWrapGo_chunks (cw : Char → Int) (length : Int) :
    ∀ (rest chars : List Char) (n : Int),
      (∀ c ∈ chars, 0 ≤ cw c) → (∀ c ∈ rest, 0 ≤ cw c) →
      n = (chars.map cw).sum →
      (n ≤ length ∨ ∃ c, chars = [c]) →
      ∀ l ∈ hardWrapGo cw length rest chars n,
        wcswidth cw l ≤ length ∨ ∃ c, l = [c] ∧ length < cw c := by
  intro rest
  induction rest with
  | nil =>
    intro chars n hch _ hsum hinv l hl2
    simp only [hardWrapGo] at hl2
    split at hl2
    · simp at hl2
    · simp only [List.mem_singleton] at hl2
      subst hl2
      exact chunk_good cw length l n hch hsum hinv
  | cons c r ih =>
    intro chars n hch hrest hsum hinv l hl2
    simp only [hardWrapGo] at hl2
    split at hl2
    · rcases List.mem_cons.mp hl2 with rfl | hmem
      · exact chunk_good cw length l n hch hsum hinv
      · refine ih [c] (cw c) ?_ ?_ (by simp) (Or.inr ⟨c, rfl⟩) l hmem
        · intro x hx
          rw [List.mem_singleton] at hx
          subst hx
          exact hrest x (List.mem_cons_self x r)
        · intro x hx
          exact hrest x (List.mem_cons_of_mem _ hx)
    · refine ih (chars ++ [c]) (n + cw c) ?_ ?_ ?_ ?_ l hl2
      · intro x hx
        rcases List.mem_append.mp hx with h1 | h1
        · exact hch x h1
        · rw [List.mem_singleton] at h1
          subst h1
          exact hrest x (List.mem_cons_self x r)
      · intro x hx
        exact hrest x (List.mem_cons_of_mem _ hx)
      · simp [hsum]
      · left
        omega

theorem wc_hard_wrap_chunks (cw : Char → Int) (length : Int) (hl : 0 ≤ length)
    (s : List Char) (hs : ∀ c ∈ s, 0 ≤ cw c) :
    ∀ l ∈ wc_hard_wrap cw s length,
      wcswidth cw l ≤ length ∨ ∃ c, l = [c] ∧ length < cw c := by
  intro l hl2
  exact hardWrapGo_chunks cw length s [] 0 (by simp) hs (by simp) (Or.inl hl) l hl2

theorem hardWrapGo_head (cw : Char → Int) (length : Int) :
    ∀ (rest chars : List Char) (n : Int), chars ≠ [] →
      ∃ ext tail, hardWrapGo cw length rest chars n = (chars ++ ext) :: tail := by
  intro rest
  induction rest with
  | nil =>
    intro chars n h
    exact ⟨[], [], by simp [hardWrapGo, h]⟩
  | cons c r ih =>
    intro chars n h
    simp only [hardWrapGo]
    split
    · exact ⟨[], hardWrapGo cw length r [c] (cw c), by simp⟩
    · obtain ⟨ext, tail, heq⟩ := ih (chars ++ [c]) (n + cw c) (by simp)
      exact ⟨[c] ++ ext, tail, by rw [heq]; simp⟩

/-! The tokenizer: every match decomposes the input, so splitting is a
partition of the text. -/

theorem matchAt_decomp : ∀ (s m r : List Char),
    matchAt s = some (m, r) → m ++ r = s ∧ m ≠ [] := by
  intro s
  induction s with
  | nil =>
    intro m r h
    simp [matchAt] at h
  | cons c rest ih =>
    intro m r h
    simp only [matchAt] at h
    split at h
    · simp at h
    · split at h
      · simp only [Option.some.injEq, Prod.mk.injEq] at h
        obtain ⟨h1, h2⟩ := h
        subst h1
        subst h2
        simp
      · split at h
        · simp only [Option.some.injEq, Prod.mk.injEq] at h
          obtain ⟨h1, h2⟩ := h
          subst h1
          subst h2
          constructor
          · rw [List.cons_append, List.takeWhile_append_dropWhile]
          · simp
        · split at h
          · simp only [Option.some.injEq, Prod.mk.injEq] at h
            obtain ⟨h1, h2⟩ := h
            subst h1
            subst h2
            simp
          · split at h
            · next m1 r1 hm =>
              simp only [Option.some.injEq, Prod.mk.injEq] at h
              obtain ⟨h1, h2⟩ := h
              subst h1
              subst h2
              obtain ⟨ha, hb⟩ := ih m1 r1 hm
              exact ⟨by rw [List.cons_append, ha], by simp⟩
            · simp at h

theorem findMatch_decomp : ∀ (s p m r : List Char),
    findMatch s = some (p, m, r) → p ++ m ++ r = s ∧ m ≠ [] := by
  intro s
  induction s with
  | nil =>
    intro p m r h
    simp [findMatch] at h
  | cons c rest ih =>
    intro p m r h
    simp only [findMatch] at h
    cases hm : matchAt (c :: rest) with
    | some pr =>
      obtain ⟨m1, r1⟩ := pr
      rw [hm] at h
      simp only [Option.some.injEq, Prod.mk.injEq] at h
      obtain ⟨h1, h2, h3⟩ := h
      subst h1
      subst h2
      subst h3
      obtain ⟨ha, hb⟩ := matchAt_decomp _ _ _ hm
      exact ⟨by simpa using ha, hb⟩
    | none =>
      rw [hm] at h
      cases hf : findMatch rest with
      | none =>
        rw [hf] at h
        simp at h
      | some t =>
        obtain ⟨p1, m1, r1⟩ := t
        rw [hf] at h
        simp only [Option.some.injEq, Prod.mk.injEq] at h
        obtain ⟨h1, h2, h3⟩ := h
        subst h1
        subst h2
        subst h3
        obtain ⟨ha, hb⟩ := ih p1 m1 r1 hf
        constructor
        · rw [List.cons_append, List.cons_append, ← ha]
        · exact hb

theorem findMatch_shrink (s p m r : List Char)
    (h : findMatch s = some (p, m, r)) : r.length < s.length := by
  obtain ⟨heq, hne⟩ := findMatch_decomp s p m r h
  have hlen := congrArg List.length heq
  simp only [List.length_append] at hlen
  have hpos : 0 < m.length := List.length_pos.mpr hne
  omega

theorem reSplitFuel_flatten : ∀ (fuel : Nat) (s : List Char),
    (reSplitFuel fuel s).flatten = s := by
  intro fuel
  induction fuel with
  | zero =>
    intro s
    simp [reSplitFuel]
  | succ n ih =>
    intro s
    simp only [reSplitFuel]
    cases hf : findMatch s with
    | none => simp
    | some t =>
      obtain ⟨p, m, r⟩ := t
      obtain ⟨heq, -⟩ := findMatch_decomp s p m r hf
      simp only [List.flatten_cons, ih r, ← List.append_assoc]
      exact heq

theorem reSplit_flatten (s : List Char) : (reSplit s).flatten = s :=
  reSplitFuel_flatten (s.length + 1) s

theorem reSplitFuel_stable : ∀ (f1 : Nat) (s : List Char) (f2 : Nat),
    s.length < f1 → s.length < f2 → reSplitFuel f1 s = reSplitFuel f2 s := by
  intro f1
  induction f1 with
  | zero =>
    intro s f2 h1 h2
    omega
  | succ n ih =>
    intro s f2 h1 h2
    cases f2 with
    | zero => omega
    | succ n2 =>
      simp only [reSplitFuel]
      split
      · rfl
      · next p m r hf =>
        have hr : r.length < s.length := findMatch_shrink s p m r hf
        rw [ih r n2 (by omega) (by omega)]

theorem flatten_filter_nonempty (l : List (List Char)) :
    (l.filter (fun w => !w.isEmpty)).flatten = l.flatten := by
  induction l with
  | nil => rfl
  | cons a t ih =>
    by_cases h : a.isEmpty
    · have ha : a = [] := by
        cases a
        · rfl
        · simp at h
      subst ha
      simp [List.filter_cons, ih]
    · simp [List.filter_cons, h, ih]

/-! Soundness of the greedy wrapping loop. -/

theorem wcWrapStep_out_good (cw : Char → Int) (length : Int) (hl : 1 ≤ length)
    (st : WrapState) (w : List Char)
    (hmem : ∀ c ∈ st.lineWords.flatten, 0 ≤ cw c) :
    ∀ l ∈ (wcWrapStep cw length st w).1,
      wcswidth cw l ≤ length ∨ ∃ c, l = [c] ∧ length < cw c := by
  intro l hl2
  simp only [wcWrapStep] at hl2
  split at hl2 <;> split at hl2 <;>
    try exact absurd hl2 (List.not_mem_nil l)
  all_goals split at hl2
  all_goals first
  | (rename_i hfit
     simp only [List.mem_singleton] at hl2
     subst hl2
     exact Or.inl hfit)
  | (refine wc_hard_wrap_chunks cw length (by omega) _ ?_ l hl2
     intro c hc
     exact hmem c (mem_pyRstrip _ c hc))

theorem state_inv_flush (cw : Char → Int) (w : List Char)
    (hw : ∀ c ∈ w, 0 ≤ cw c) :
    (∀ c ∈ ([w] : List (List Char)).flatten, 0 ≤ cw c) ∧
    wcswidth cw [] + wcswidth cw w =
      (([w] : List (List Char)).flatten.map cw).sum := by
  constructor
  · intro c hc
    simp only [List.flatten_cons, List.flatten_nil, List.append_nil] at hc
    exact hw c hc
  · simp only [List.flatten_cons, List.flatten_nil, List.append_nil,
      wcswidth_nil, wcswidth_eq_sum cw w hw]
    omega

theorem state_inv_append (cw : Char → Int) (lw : List (List Char))
    (w : List Char) (hmem : ∀ c ∈ lw.flatten, 0 ≤ cw c)
    (hw : ∀ c ∈ w, 0 ≤ cw c) :
    (∀ c ∈ (lw ++ [w]).flatten, 0 ≤ cw c) ∧
    wcswidth cw lw.flatten + wcswidth cw w =
      ((lw ++ [w]).flatten.map cw).sum := by
  constructor
  · intro c hc
    rw [List.flatten_append] at hc
    rcases List.mem_append.mp hc with h1 | h1
    · exact hmem c h1
    · simp only [List.flatten_cons, List.flatten_nil, List.append_nil] at h1
      exact hw c h1
  · rw [List.flatten_append, List.map_append, List.sum_append,
      wcswidth_eq_sum cw _ hmem, wcswidth_eq_sum cw w hw]
    simp

theorem wcWrapStep_state (cw : Char → Int) (length : Int) (st : WrapState)
    (w : List Char) (hmem : ∀ c ∈ st.lineWords.flatten, 0 ≤ cw c)
    (hw : ∀ c ∈ w, 0 ≤ cw c) :
    (∀ c ∈ (wcWrapStep cw length st w).2.lineWords.flatten, 0 ≤ cw c) ∧
    (wcWrapStep cw length st w).2.lineLen =
      ((wcWrapStep cw length st w).2.lineWords.flatten.map cw).sum := by
  simp only [wcWrapStep]
  split <;> split
  any_goals exact state_inv_flush cw w hw
  all_goals exact state_inv_append cw st.lineWords w hmem hw

theorem wcWrapGo_good (cw : Char → Int) (length : Int) (hl : 1 ≤ length) :
    ∀ (words : List (List Char)) (st : WrapState),
      (∀ w ∈ words, ∀ c ∈ w, 0 ≤ cw c) →
      (∀ c ∈ st.lineWords.flatten, 0 ≤ cw c) →
      st.lineLen = (st.lineWords.flatten.map cw).sum →
      ∀ l ∈ wcWrapGo cw length st words,
        wcswidth cw l ≤ length ∨ ∃ c, l = [c] ∧ length < cw c := by
  intro words
  induction words with
  | nil =>
    intro st _ hmem hsum l hl2
    simp only [wcWrapGo, wcWrapFinal] at hl2
    split at hl2
    · simp at hl2
    · split at hl2
      · next hle =>
        simp only [List.mem_singleton] at hl2
        subst hl2
        left
        have hmem2 : ∀ c ∈ pyRstrip st.lineWords.flatten, 0 ≤ cw c :=
          fun c hc => hmem c (mem_pyRstrip _ c hc)
        rw [wcswidth_eq_sum cw _ hmem2]
        have h1 := sum_pyRstrip_le cw st.lineWords.flatten hmem
        omega
      · refine wc_hard_wrap_chunks cw length (by omega) _ ?_ l hl2
        intro c hc
        exact hmem c (mem_pyRstrip _ c hc)
  | cons w ws ih =>
    intro st hws hmem hsum l hl2
    simp only [wcWrapGo] at hl2
    rcases List.mem_append.mp hl2 with h1 | h1
    · exact wcWrapStep_out_good cw length hl st w hmem l h1
    · obtain ⟨hm2, hs2⟩ :=
        wcWrapStep_state cw length st w hmem (hws w (List.mem_cons_self w ws))
      exact ih _ (fun x hx => hws x (List.mem_cons_of_mem _ hx)) hm2 hs2 l h1

/-- C1 (amended): for every length of at least 1 and every text all of whose
characters have non-negative oracle width, every line yielded by
`wc_wrap text length` has display width at most `length`, except a chunk
consisting of a single character whose own width exceeds `length` (the
hard-wrap fallback's documented pathological case).  The claim as stated
over arbitrary text fails — see `wrap_width_counterexample` — because a
whitespace control character such as a tab makes `wcswidth` return its `-1`
sentinel for the unstripped line, so the final size check passes while the
stripped line is arbitrarily wide. -/
theorem wrap_width_bound (cw : Char → Int) (text : List Char) (length : Int)
    (hl : 1 ≤ length) (hn : ∀ c ∈ text, 0 ≤ cw c) :
    ∀ l ∈ wc_wrap cw text length,
      wcswidth cw l ≤ length ∨ ∃ c, l = [c] ∧ length < cw c := by
  intro l hl2
  unfold wc_wrap at hl2
  refine wcWrapGo_good cw length hl _ _ ?_ ?_ ?_ l hl2
  · intro w hw c hc
    apply hn
    have hw2 : w ∈ reSplit text := List.mem_of_mem_filter hw
    have hcc : c ∈ (reSplit text).flatten := List.mem_flatten.mpr ⟨w, hw2, hc⟩
    rwa [reSplit_flatten] at hcc
  · simp
  · simp

/-- Witness for `wrap_width_bound`: the bound evaluated on the line `"a"`
of `wc_wrap "ab" 1`. -/
theorem wrap_width_bound_witness :
    wcswidth sampleWidth ['a'] ≤ 1 ∨ ∃ c, ['a'] = [c] ∧ 1 < sampleWidth c :=
  wrap_width_bound sampleWidth ("ab".toList) 1 (by norm_num)
    (by decide) ['a'] (by decide)

/-- C1 counterexample: `wc_wrap "aa\t" 1` yields the single line `"aa"`,
whose display width 2 exceeds the length 1, and which is not a single
over-wide character. -/
theorem wrap_width_counterexample :
    wc_wrap sampleWidth ("aa\t".toList) 1 = [['a', 'a']] ∧
    wcswidth sampleWidth ['a', 'a'] = 2 ∧
    ¬ (∃ c, (['a', 'a'] : List Char) = [c] ∧ (1 : Int) < sampleWidth c) := by
  refine ⟨by decide, by decide, ?_⟩
  rintro ⟨c, hc, -⟩
  simp at hc

/-- C2: concatenating, in order, all chunks yielded by
`_wc_hard_wrap line length` reproduces `line` exactly — no character is
dropped, added, reordered or split across two chunks: the chunks are
contiguous substrings partitioning the line. -/
theorem hard_wrap_partition (cw : Char → Int) (line : List Char)
    (length : Int) (hl : 1 ≤ length) :
    (wc_hard_wrap cw line length).flatten = line := by
  unfold wc_hard_wrap
  rw [hardWrapGo_flatten]
  rfl

/-- Witness for `hard_wrap_partition` at a concrete input. -/
theorem hard_wrap_partition_witness :
    (wc_hard_wrap sampleWidth ("ab".toList) 1).flatten = "ab".toList :=
  hard_wrap_partition sampleWidth ("ab".toList) 1 (by norm_num)

/-- C8: `wc_wrap "the quick brown fox" 10` yields exactly the two lines
`"the quick"` and `"brown fox"`, in that order. -/
theorem wrap_fox_example :
    wc_wrap sampleWidth ("the quick brown fox".toList) 10 =
      [("the quick".toList), ("brown fox".toList)] := by decide

/-- C9: the tokenization used by `wc_wrap` is a round trip — concatenating
the tokens in order reconstructs the text exactly — and the token stream the
wrapping loop consumes (empty tokens are discarded) contains no empty
token. -/
theorem tokenize_round_trip (text : List Char) :
    ((reSplit text).filter (fun w => !w.isEmpty)).flatten = text ∧
    ∀ w ∈ (reSplit text).filter (fun w => !w.isEmpty), w ≠ [] := by
  constructor
  · rw [flatten_filter_nonempty]
    exact reSplit_flatten text
  · intro w hw
    have h := List.of_mem_filter hw
    simp only [Bool.not_eq_true'] at h
    intro hnil
    subst hnil
    simp at h

/-- C10: for every length of at least 1, when the first character of a
non-empty input is strictly wider than the budget, `_wc_hard_wrap` yields
the empty string as its first chunk, followed by the chunk containing that
character; consequently `wc_wrap` can yield an empty line, as wrapping the
single double-width character `"汉"` at length 1 shows. -/
theorem hard_wrap_leading_empty (cw : Char → Int) (c : Char)
    (rest : List Char) (length : Int) (hl : 1 ≤ length)
    (hw : length < cw c) :
    (∃ ext tail,
        wc_hard_wrap cw (c :: rest) length = [] :: (c :: ext) :: tail) ∧
    wc_wrap sampleWidth ['汉'] 1 = [[], ['汉']] := by
  constructor
  · unfold wc_hard_wrap
    simp only [hardWrapGo]
    rw [if_pos (by omega : (0 : Int) + cw c > length)]
    obtain ⟨ext, tail, heq⟩ :=
      hardWrapGo_head cw length rest [c] (cw c) (by simp)
    exact ⟨ext, tail, by rw [heq]; rfl⟩
  · decide

/-- Witness for `hard_wrap_leading_empty` at a concrete input. -/
theorem hard_wrap_leading_empty_witness :
    ∃ ext tail,
      wc_hard_wrap sampleWidth ['汉'] 1 = [] :: ('汉' :: ext) :: tail :=
  (hard_wrap_leading_empty sampleWidth '汉' [] 1 (by norm_num) (by decide)).1

/-! The truncating reverse scan of `trunc`. -/

theorem truncCount_spec (cw : Char → Int) (length : Int) :
    ∀ (rev : List Char) (remaining : Int),
      remaining - ((rev.map cw).sum) ≤ length →
      truncCount cw length remaining rev ≤ rev.length ∧
      remaining -
        (((rev.take (truncCount cw length remaining rev)).map cw).sum) ≤
        length := by
  intro rev
  induction rev with
  | nil =>
    intro remaining h
    simp only [truncCount]
    constructor
    · simp
    · simpa using h
  | cons c rest ih =>
    intro remaining h
    simp only [truncCount]
    split
    · next hbreak =>
      constructor
      · simp
      · simpa using hbreak
    · next hno =>
      have h2 : (remaining - cw c) - ((rest.map cw).sum) ≤ length := by
        simp only [List.map_cons, List.sum_cons] at h
        omega
      obtain ⟨ih1, ih2⟩ := ih (remaining - cw c) h2
      constructor
      · simp only [List.length_cons]
        omega
      · rw [List.take_succ_cons]
        simp only [List.map_cons, List.sum_cons]
        omega

theorem reverse_take_eq (s : List Char) (k : Nat) (hk : k ≤ s.length) :
    s.reverse.take k = (s.drop (s.length - k)).reverse := by
  have h1 : s = s.take (s.length - k) ++ s.drop (s.length - k) :=
    (List.take_append_drop _ s).symm
  have hlen : (s.drop (s.length - k)).reverse.length = k := by
    rw [List.length_reverse, List.length_drop]
    omega
  conv_lhs => rw [h1]
  rw [List.reverse_append]
  exact List.take_left' hlen

theorem sum_reverse_take (cw : Char → Int) (s : List Char) (k : Nat)
    (hk : k ≤ s.length) :
    ((s.take (s.length - k)).map cw).sum
      = (s.map cw).sum - ((s.reverse.take k).map cw).sum := by
  rw [reverse_take_eq s k hk, List.map_reverse, List.sum_reverse]
  have hsplit : (s.map cw).sum
      = ((s.take (s.length - k)).map cw).sum
        + ((s.drop (s.length - k)).map cw).sum := by
    conv_lhs => rw [← List.take_append_drop (s.length - k) s]
    rw [List.map_append, List.sum_append]
  omega

theorem sum_take_lt (cw : Char → Int) :
    ∀ (s : List Char) (m : Nat), 0 < m → m ≤ s.length →
      (∀ c ∈ s, 1 ≤ cw c) →
      ((s.take (m - 1)).map cw).sum + 1 ≤ ((s.take m).map cw).sum := by
  intro s
  induction s with
  | nil =>
    intro m h1 h2 _
    simp at h2
    omega
  | cons c rest ih =>
    intro m hm hms h1
    cases m with
    | zero => omega
    | succ m2 =>
      cases m2 with
      | zero =>
        have hc : 1 ≤ cw c := h1 c (List.mem_cons_self c rest)
        simp only [Nat.sub_self, List.take_zero, List.map_nil, List.sum_nil,
          List.take_succ_cons, List.take_zero, List.map_cons, List.map_nil,
          List.sum_cons, List.sum_nil]
        omega
      | succ m3 =>
        simp only [Nat.succ_sub_one, List.take_succ_cons, List.map_cons,
          List.sum_cons]
        have hih := ih (m3 + 1) (by omega)
          (by simpa using hms)
          (fun x hx => h1 x (List.mem_cons_of_mem _ hx))
        simp only [Nat.succ_sub_one] at hih
        omega

theorem trunc_width_le (cw : Char → Int) (text : List Char) (length : Int)
    (hl : 1 ≤ length) (h1 : ∀ c ∈ text, 1 ≤ cw c) (hell : cw '…' = 1) :
    ∃ r, trunc cw text length = some r ∧ wcswidth cw r ≤ length := by
  have h1s : ∀ c ∈ pyStrip text, 1 ≤ cw c :=
    fun c hc => h1 c (mem_pyStrip text c hc)
  have h0s : ∀ c ∈ pyStrip text, 0 ≤ cw c :=
    fun c hc => le_trans zero_le_one (h1s c hc)
  simp only [trunc]
  rw [if_neg (by omega : ¬ length < 1)]
  by_cases hle : wcswidth cw (pyStrip text) ≤ length
  · rw [if_pos hle]
    exact ⟨pyStrip text, rfl, hle⟩
  · rw [if_neg hle]
    set s := pyStrip text with hsdef
    set k := truncCount cw length (wcswidth cw s) s.reverse with hkdef
    refine ⟨_, rfl, ?_⟩
    have hsum : wcswidth cw s = (s.map cw).sum := wcswidth_eq_sum cw s h0s
    have hrevsum : ((s.reverse.map cw)).sum = (s.map cw).sum := by
      rw [List.map_reverse, List.sum_reverse]
    obtain ⟨hk1, hk2⟩ := truncCount_spec cw length s.reverse (wcswidth cw s)
      (by rw [hrevsum, ← hsum]; omega)
    rw [← hkdef] at hk1 hk2
    rw [List.length_reverse] at hk1
    have hpref : ((s.take (s.length - k)).map cw).sum ≤ length := by
      rw [sum_reverse_take cw s k hk1]
      omega
    have hpref2 : ((s.take (s.length - (k + 1))).map cw).sum ≤ length - 1 := by
      rcases Nat.lt_or_ge k s.length with hlt | hge
      · have hm := sum_take_lt cw s (s.length - k) (by omega) (by omega) h1s
        have heq2 : s.length - k - 1 = s.length - (k + 1) := by omega
        rw [heq2] at hm
        omega
      · have h0 : s.length - (k + 1) = 0 := by omega
        rw [h0]
        simp only [List.take_zero, List.map_nil, List.sum_nil]
        omega
    have hallr : ∀ c ∈ pyStrip (s.take (s.length - (k + 1))) ++ ['…'],
        0 ≤ cw c := by
      intro c hc
      rcases List.mem_append.mp hc with h | h
      · exact le_trans zero_le_one
          (h1s c (List.take_subset _ _ (mem_pyStrip _ c h)))
      · rw [List.mem_singleton] at h
        subst h
        rw [hell]
        norm_num
    rw [wcswidth_eq_sum cw _ hallr, List.map_append, List.sum_append]
    have hstr := sum_pyStrip_le cw (s.take (s.length - (k + 1)))
      (fun c hc => le_trans zero_le_one (h1s c (List.take_subset _ _ hc)))
    simp only [List.map_cons, List.map_nil, List.sum_cons, List.sum_nil, hell]
    omega

/-! The padder. -/

theorem sum_map_replicate_space (cw : Char → Int) (hsp : cw ' ' = 1) :
    ∀ n : Nat, ((List.replicate n ' ').map cw).sum = n := by
  intro n
  induction n with
  | zero => simp
  | succ m ih =>
    rw [List.replicate_succ, List.map_cons, List.sum_cons, ih, hsp]
    push_cast
    ring

theorem pad_width (cw : Char → Int) (text : List Char) (length : Int)
    (hd : 0 ≤ wcswidth cw text) (hsp : cw ' ' = 1) :
    wcswidth cw (pad cw text length) = max (wcswidth cw text) length := by
  have hmem := (wcswidth_nonneg_iff cw text).mp hd
  simp only [pad]
  split
  · next hlt =>
    have hall : ∀ c ∈ text ++
        List.replicate (length - wcswidth cw text).toNat ' ', 0 ≤ cw c := by
      intro c hc
      rcases List.mem_append.mp hc with h | h
      · exact hmem c h
      · rw [List.eq_of_mem_replicate h, hsp]
        norm_num
    rw [wcswidth_eq_sum cw _ hall, List.map_append, List.sum_append,
      sum_map_replicate_space cw hsp, ← wcswidth_eq_sum cw text hmem,
      Int.toNat_of_nonneg (by omega), max_eq_right (le_of_lt hlt)]
    ring
  · next hge =>
    rw [max_eq_left (by omega)]

theorem trunc_none_iff (cw : Char → Int) (text : List Char) (length : Int) :
    trunc cw text length = none ↔ length < 1 := by
  simp only [trunc]
  split
  · next h => simp [h]
  · next h =>
    split
    · exact iff_of_false (by simp) h
    · exact iff_of_false (by simp) h

theorem fit_none_iff (cw : Char → Int) (text : List Char) (length : Int) :
    fit_text cw text length = none ↔
      length < 1 ∧ length < wcswidth cw text := by
  simp only [fit_text]
  split
  · next h =>
    rw [trunc_none_iff]
    constructor
    · intro h2
      exact ⟨h2, h⟩
    · intro h2
      exact h2.1
  · next h =>
    split
    · exact iff_of_false (by simp) (fun h2 => absurd h2.2 (by omega))
    · exact iff_of_false (by simp) (fun h2 => absurd h2.2 (by omega))

/-- C3 (amended): for every length of at least 1 and every text all of whose
characters have positive display width, `fit_text` returns a string of
display width at most `length`, and of width exactly `length` whenever the
text's own width is at most `length` (padding when less, and the text
unchanged when equal).  The unamended claim — exact width in the truncation
case as well — fails: see `fit_width_counterexample`. -/
theorem fit_width (cw : Char → Int) (text : List Char) (length : Int)
    (hl : 1 ≤ length) (h1 : ∀ c ∈ text, 1 ≤ cw c)
    (hsp : cw ' ' = 1) (hell : cw '…' = 1) :
    ∃ r, fit_text cw text length = some r ∧ wcswidth cw r ≤ length ∧
      (wcswidth cw text ≤ length → wcswidth cw r = length) := by
  have h0 : ∀ c ∈ text, 0 ≤ cw c := fun c hc => le_trans zero_le_one (h1 c hc)
  have hd : 0 ≤ wcswidth cw text := (wcswidth_nonneg_iff cw text).mpr h0
  simp only [fit_text]
  split
  · next hgt =>
    obtain ⟨r, hr, hw⟩ := trunc_width_le cw text length hl h1 hell
    exact ⟨r, hr, hw, fun hcon => absurd hcon (by omega)⟩
  · next hng =>
    split
    · next hlt =>
      have hw := pad_width cw text length hd hsp
      rw [max_eq_right (by omega)] at hw
      exact ⟨pad cw text length, rfl, by omega, fun _ => hw⟩
    · next hnl =>
      have heq : wcswidth cw text = length := by omega
      exact ⟨text, rfl, by omega, fun _ => heq⟩

/-- Witness for `fit_width` at a concrete input: `fit_text "hello" 5`. -/
theorem fit_width_witness :
    ∃ r, fit_text sampleWidth ("hello".toList) 5 = some r ∧
      wcswidth sampleWidth r ≤ 5 ∧
      (wcswidth sampleWidth ("hello".toList) ≤ 5 →
        wcswidth sampleWidth r = 5) :=
  fit_width sampleWidth ("hello".toList) 5 (by norm_num) (by decide)
    (by decide) (by decide)

/-- C3 counterexample: `fit_text "a bcdef" 3` returns `"a…"`, whose display
width is 2, not exactly 3 — the truncating branch strips the internal space
before appending the ellipsis, so the result falls short of the target. -/
theorem fit_width_counterexample :
    fit_text sampleWidth ("a bcdef".toList) 3 = some ("a…".toList) ∧
    wcswidth sampleWidth ("a…".toList) ≠ 3 := by
  exact ⟨by decide, by decide⟩

/-- C4 (amended): fit is idempotent on text with defined non-negative
display width at most `length`: the pad and identity branches produce a
string of width exactly `length`, which the second application returns
unchanged.  Idempotence fails when the width exceeds `length`, because the
truncating branch can return a string strictly narrower than `length` that
the second application then pads: see `fit_idem_counterexample`. -/
theorem fit_idem (cw : Char → Int) (text : List Char) (length : Int)
    (hl : 1 ≤ length) (hd : 0 ≤ wcswidth cw text)
    (hle : wcswidth cw text ≤ length) (hsp : cw ' ' = 1) :
    ∃ r, fit_text cw text length = some r ∧ fit_text cw r length = some r := by
  rcases lt_or_eq_of_le hle with hlt | heq
  · refine ⟨pad cw text length, ?_, ?_⟩
    · simp only [fit_text]
      rw [if_neg (by omega), if_pos hlt]
    · have hw := pad_width cw text length hd hsp
      rw [max_eq_right (by omega)] at hw
      simp only [fit_text]
      rw [hw, if_neg (by omega), if_neg (by omega)]
  · refine ⟨text, ?_, ?_⟩ <;>
    · simp only [fit_text]
      rw [if_neg (by omega), if_neg (by omega)]

/-- Witness for `fit_idem` at a concrete input: `fit_text "hi" 5`. -/
theorem fit_idem_witness :
    ∃ r, fit_text sampleWidth ("hi".toList) 5 = some r ∧
      fit_text sampleWidth r 5 = some r :=
  fit_idem sampleWidth ("hi".toList) 5 (by norm_num) (by decide) (by decide)
    (by decide)

/-- C4 counterexample: at `text = "a bcdef"` and `length = 3`, the first
application of `fit_text` truncates to `"a…"` of width 2, and the second
application pads that to `"a… "`, so fit composed with itself differs from
fit. -/
theorem fit_idem_counterexample :
    (fit_text sampleWidth ("a bcdef".toList) 3).bind
        (fun r => fit_text sampleWidth r 3) ≠
      fit_text sampleWidth ("a bcdef".toList) 3 := by decide

/-- C5 (code bug at zero-width characters): on `"abc" ++ [U+0300] ++ "d"`
(the combining grave accent has display width 0) with length 3, `trunc`
returns `"abc…"`, whose display width 4 exceeds the requested length,
contradicting the guarantee that the result's width is at most `length`:
the scan drops one extra character to make room for the ellipsis, but that
character is the zero-width mark, which frees no column. -/
theorem trunc_zero_width_bug :
    trunc sampleWidth ("abc\u0300d".toList) 3 = some ("abc…".toList) ∧
    wcswidth sampleWidth ("abc…".toList) = 4 ∧ (3 : Int) < 4 :=
  ⟨by decide, by decide, by norm_num⟩

/-- C6 (amended): `trunc` errors exactly when `length < 1` (the check is
the first thing the function does), and `fit_text` propagates that error
exactly when `length < 1` and the text's display width exceeds `length`;
when the width is at most `length`, an invalid length is silently accepted
(see `fit_error_counterexample`).  For `length ≥ 1` neither errors. -/
theorem trunc_fit_error_iff (cw : Char → Int) (text : List Char)
    (length : Int) :
    (trunc cw text length = none ↔ length < 1) ∧
    (fit_text cw text length = none ↔
      length < 1 ∧ length < wcswidth cw text) :=
  ⟨trunc_none_iff cw text length, fit_none_iff cw text length⟩

/-- C6 counterexample: `fit_text "" 0` returns the empty string without
erroring, although `0 < 1`, so `fit_text` does not transitively raise for
every invalid length. -/
theorem fit_error_counterexample :
    fit_text sampleWidth [] 0 = some [] ∧ (0 : Int) < 1 :=
  ⟨by decide, by norm_num⟩

/-- C7: for text with defined (non-negative) display width and any integer
length, the width of `pad text length` is exactly
`max (wcswidth text) length`; pad never shortens — the text is always a
prefix of the result, with exactly `length - wcswidth text` ASCII spaces
appended when the width is below `length`, and the text returned unchanged
otherwise. -/
theorem pad_spec (cw : Char → Int) (text : List Char) (length : Int)
    (hd : 0 ≤ wcswidth cw text) (hsp : cw ' ' = 1) :
    wcswidth cw (pad cw text length) = max (wcswidth cw text) length ∧
    (∃ t, pad cw text length = text ++ t) ∧
    (wcswidth cw text < length →
      pad cw text length =
        text ++ List.replicate (length - wcswidth cw text).toNat ' ') ∧
    (length ≤ wcswidth cw text → pad cw text length = text) := by
  refine ⟨pad_width cw text length hd hsp, ?_, ?_, ?_⟩
  · simp only [pad]
    split
    · exact ⟨_, rfl⟩
    · exact ⟨[], by simp⟩
  · intro hlt
    simp only [pad]
    rw [if_pos hlt]
  · intro hge
    simp only [pad]
    rw [if_neg (by omega)]

/-- Witness for `pad_spec` at a concrete input: `pad "hi" 5`. -/
theorem pad_spec_witness :
    wcswidth sampleWidth (pad sampleWidth ("hi".toList) 5)
        = max (wcswidth sampleWidth ("hi".toList)) 5 ∧
    (∃ t, pad sampleWidth ("hi".toList) 5 = "hi".toList ++ t) ∧
    (wcswidth sampleWidth ("hi".toList) < 5 →
      pad sampleWidth ("hi".toList) 5 =
        "hi".toList ++
          List.replicate (5 - wcswidth sampleWidth ("hi".toList)).toNat ' ') ∧
    (5 ≤ wcswidth sampleWidth ("hi".toList) →
      pad sampleWidth ("hi".toList) 5 = "hi".toList) :=
  pad_spec sampleWidth ("hi".toList) 5 (by decide) (by decide)
